import Mathlib

/-!
Verification of the CWL reference engine core
(`reference/cwltool/workflow.py` and `reference/cwltool/sandboxjs.py`)
against its natural-language specification.

The Python source is shallowly embedded: JSON/YAML trees become the
inductive `Value`; Python dicts become association lists; exceptions
become `Except RunErr`; the mutable networkx digraph of `Workflow`
becomes the explicit `Graph` state record threaded through the
scheduler functions.  Each embedded definition mirrors one Python
function and keeps its name where Lean allows it.
-/

/-- Errors raised by the engine.  Each constructor corresponds to one
`raise` site (or one uncaught builtin error) of the Python source:
`scatterAmbiguous`, `underNested`, `scatterUnsupported` are the three
scatter policy errors of `BaseApp.run`; `processFailed` is the
`RuntimeError` of `CLTool._run`; `expressionFailure` is
`JavascriptException`; `keyErr`, `indexErr`, `typeErr` model the
uncaught Python `KeyError` / `IndexError` / `TypeError`-`AttributeError`
builtins; `outOfFuel` is an artifact of embedding the unbounded
scheduler loop with explicit fuel. -/
inductive RunErr where
  | scatterAmbiguous
  | underNested
  | scatterUnsupported
  | processFailed
  | expressionFailure
  | keyErr
  | indexErr
  | typeErr
  | outOfFuel
deriving DecidableEq, Repr

/-- The universal data quantum: a decoded JSON/YAML tree.  Numbers are
modelled as integers (the examples only use integers); a Python `None`
is `vnull`. -/
inductive Value where
  | vnull
  | vbool (b : Bool)
  | vnum (n : Int)
  | vstr (s : String)
  | vlist (xs : List Value)
  | vdict (kvs : List (String × Value))
deriving Repr

/-- `isinstance(v, list)` on a decoded tree. -/
def Value.isList : Value → Bool
  | .vlist _ => true
  | _ => false

/-- The reserved property set of `listify_properties` in the source:
`props = 'inputs', 'outputs', 'links', 'baseCmd', 'arguments',
'schemaDefs', 'steps'`. -/
def props : List String :=
  ["inputs", "outputs", "links", "baseCmd", "arguments", "schemaDefs", "steps"]

mutual
/-- Embedding of `listify_properties` (workflow.py lines 16-29).  The
Python function mutates the tree in place; the net effect on a mapping
entry `(key, val)` is: if `key` is in `props` and `val` is not a list,
the new value is the singleton list of the normalized `val` (the code
wraps first and then recurses into the original `val` object), else it
is the normalized `val`.  Lists are normalized elementwise and other
values are untouched. -/
def listifyProperties : Value → Value
  | .vlist xs => .vlist (listifyList xs)
  | .vdict kvs => .vdict (listifyDict kvs)
  | v => v

/-- Elementwise normalization of a sequence node (the `isinstance(obj,
list)` branch of `listify_properties`). -/
def listifyList : List Value → List Value
  | [] => []
  | x :: xs => listifyProperties x :: listifyList xs

/-- Entrywise normalization of a mapping node (the `isinstance(obj,
dict)` branch of `listify_properties`). -/
def listifyDict : List (String × Value) → List (String × Value)
  | [] => []
  | (k, v) :: kvs =>
      (k, if k ∈ props ∧ ¬ v.isList then .vlist [listifyProperties v]
          else listifyProperties v) :: listifyDict kvs
end

/-- The reserved key set exactly as the specification (and claim C5)
lists it: eight keys, including `inputBindings`. -/
def claimedProps : List String :=
  ["inputs", "outputs", "links", "baseCmd", "arguments", "inputBindings",
   "schemaDefs", "steps"]

mutual
/-- The normalizer as the specification's words describe it,
parametrized by the reserved key set `ks`: at every mapping node, each
key of `ks` whose value is not already a sequence is replaced by a
single-element sequence containing that (recursively normalized)
value, and the traversal recurses into every sequence element and
mapping value. -/
def normWith (ks : List String) : Value → Value
  | .vlist xs => .vlist (normListWith ks xs)
  | .vdict kvs => .vdict (normDictWith ks kvs)
  | v => v

/-- Sequence case of `normWith`. -/
def normListWith (ks : List String) : List Value → List Value
  | [] => []
  | x :: xs => normWith ks x :: normListWith ks xs

/-- Mapping case of `normWith`. -/
def normDictWith (ks : List String) : List (String × Value) → List (String × Value)
  | [] => []
  | (k, v) :: kvs =>
      (k, if k ∈ ks ∧ ¬ v.isList then .vlist [normWith ks v] else normWith ks v) ::
        normDictWith ks kvs
end

/-- The normalizer claim C5 describes: the spec traversal with the
eight-key reserved set (including `inputBindings`). -/
def claimedNormalize : Value → Value := normWith claimedProps

/-- The normalizer of the amended claim: the spec traversal with the
source's actual seven-key reserved set (no `inputBindings`). -/
def amendedNormalize : Value → Value := normWith props

/-- The opening-brace character, `'{'` (written numerically so that no
brace appears inside a literal). -/
def lbrace : Char := Char.ofNat 123

/-- Embedding of the snippet-wrapping conditional of `execjs`
(sandboxjs.py line 17): the snippet is used verbatim as a statement
body only when it is a string of length greater than one whose first
character is a brace; otherwise it is interpolated into the template
`"\x7breturn (%s);\x7d"` (no spaces inside the braces). -/
def wrapSource (js : String) : String :=
  if js.length > 1 && js.front == lbrace then js
  else "\x7breturn (" ++ js ++ ");\x7d"

/-- The wrapping rule exactly as claim C7 words it: a snippet beginning
with a brace is used as a statement body (no length condition), and
any other snippet is wrapped using the specification's spaced template
`"\x7b return (%s); \x7d"`. -/
def claimedWrapSource (js : String) : String :=
  if js.front == lbrace then js
  else "\x7b return (" ++ js ++ "); \x7d"

/-- The wrapping rule as the amended claim words it: used verbatim only
when the snippet has at least two characters and begins with a brace;
otherwise wrapped as `"\x7breturn (%s);\x7d"` without spaces. -/
def amendedWrapSource (js : String) : String :=
  if 1 < js.length ∧ js.front = lbrace then js
  else "\x7breturn (" ++ js ++ ");\x7d"

/-- One declared input port of a runnable's document: its `id` field
(a string beginning with a hash) and its optional `depth` field, as
read by `BaseApp.run` from `self.d.get('inputs', [])`. -/
structure InPortDecl where
  id : String
  depth : Option Nat
deriving DecidableEq, Repr

/-- Embedding of the local `depth` helper of `BaseApp.run`: depth of a
value is 0 unless it is a nonempty list, in which case it is one more
than the depth of the first element. -/
def depthOf : Value → Nat
  | .vlist (x :: _) => depthOf x + 1
  | _ => 0

/-- `i['id'][1:]`: the port id with its leading hash stripped. -/
def stripId (s : String) : String := s.drop 1

/-- The expected depth of supplied key `k`, as the dict comprehension
`{i['id'][1:]: i.get('depth', 0) for i in self.d.get('inputs', [])}`
yields it: the last declaration whose stripped id is `k` wins, with
depth defaulting to 0. -/
def expectedOf (decls : List InPortDecl) (k : String) : Option Nat :=
  (decls.reverse.find? (fun d => stripId d.id == k)).map (fun d => d.depth.getD 0)

/-- The test `expected_depths == actual_depths` of `BaseApp.run` after
the restriction of `expected_depths` to supplied keys: the two dicts
are equal exactly when every supplied key is declared and its supplied
value's depth equals the declared depth. -/
def depthsMatch (decls : List InPortDecl) (inputs : List (String × Value)) : Bool :=
  inputs.all fun kv =>
    match expectedOf decls kv.1 with
    | some e => depthOf kv.2 == e
    | none => false

/-- The `mismatch` dict of `BaseApp.run`: for each declared-and-supplied
port name whose actual depth differs from its expected depth, the
triple (name, expected, actual).  Dict key order is immaterial to the
source's behavior (only the size and the unique element matter), so a
canonical first-occurrence order over the declarations is used. -/
def mismatchList (decls : List InPortDecl) (inputs : List (String × Value)) :
    List (String × Nat × Nat) :=
  ((decls.map (fun d => stripId d.id)).dedup).filterMap fun k =>
    match List.lookup k inputs, expectedOf decls k with
    | some v, some e => if depthOf v ≠ e then some (k, e, depthOf v) else none
    | _, _ => none

/-- `inps = deepcopy(inputs); inps[port] = item`: the inputs mapping
with the value of key `k` replaced by `x`. -/
def setKey (inputs : List (String × Value)) (k : String) (x : Value) :
    List (String × Value) :=
  inputs.map fun kv => if kv.1 = k then (kv.1, x) else kv

/-- The scatter loop of `BaseApp.run`: run `body` once per element of
the over-nested port's list, with that port bound to the element, and
collect the per-element results in list order. -/
def scatterRuns (body : List (String × Value) → Except RunErr Value)
    (inputs : List (String × Value)) (k : String) :
    List Value → Except RunErr (List Value)
  | [] => .ok []
  | x :: xs => do
      let r ← body (setKey inputs k x)
      let rs ← scatterRuns body inputs k xs
      .ok (r :: rs)

/-- `set(r.keys())` demands every per-element result be a mapping; a
non-mapping result raises (modelled as `typeErr`). -/
def toDicts : List Value → Except RunErr (List (List (String × Value)))
  | [] => .ok []
  | .vdict d :: rs => do
      let ds ← toDicts rs
      .ok (d :: ds)
  | _ :: _ => .error .typeErr

/-- `outputs = reduce(set.union, [set(r.keys()) for r in results],
set())`: the union of the result key sets (set order is immaterial;
first-occurrence order is used). -/
def keyUnion (ds : List (List (String × Value))) : List String :=
  (ds.foldl (fun acc d => acc ++ d.map Prod.fst) []).dedup

/-- `{k: [r.get(k) for r in results] for k in outputs}`: for every key
of the union, the ordered sequence of per-element values, with `None`
(here `vnull`) for results missing the key. -/
def aggregate (ds : List (List (String × Value))) : List (String × Value) :=
  (keyUnion ds).map fun k =>
    (k, .vlist (ds.map fun d => (List.lookup k d).getD .vnull))

/-- Embedding of `BaseApp.run` (workflow.py lines 57-85).  `body` is
the subclass's `_run`.  The branches follow the source: run directly on
depth agreement; on more than one mismatched port raise the ambiguity
error; `mismatch.values()[0]` on an empty mismatch dict (possible when
an undeclared key is supplied while all declared ports agree) raises
`IndexError`; a single under-nested port raises `underNested`; a gap
other than one raises `scatterUnsupported`; otherwise scatter and
aggregate.  The final `typeErr` arm is unreachable: a port of actual
depth `e + 1` is always a nonempty list. -/
def runApp (decls : List InPortDecl) (body : List (String × Value) → Except RunErr Value)
    (inputs : List (String × Value)) : Except RunErr Value :=
  if depthsMatch decls inputs then body inputs
  else
    match mismatchList decls inputs with
    | [] => .error .indexErr
    | [(k, e, a)] =>
        if a < e then .error .underNested
        else if a - e ≠ 1 then .error .scatterUnsupported
        else
          match List.lookup k inputs with
          | some (.vlist items) => do
              let rs ← scatterRuns body inputs k items
              let ds ← toDicts rs
              .ok (.vdict (aggregate ds))
          | _ => .error .typeErr
    | _ => .error .scatterAmbiguous

/-- The number of over-nested ports (actual depth greater than
expected) among the mismatched ports: what claim C1 says the ambiguity
check counts. -/
def overCount (decls : List InPortDecl) (inputs : List (String × Value)) : Nat :=
  (mismatchList decls inputs).countP fun t => t.2.1 < t.2.2

/-- Node execution status: the `status` attribute is absent until the
scheduler selects the node (`none` here), then `running`, then
`done`. -/
inductive Status where
  | running
  | done
deriving DecidableEq, Repr

/-- The two node kinds of the workflow graph. -/
inductive NType where
  | port
  | step
deriving DecidableEq, Repr

/-- One node of the workflow digraph with its attribute dict: `type`,
`val` (read through `data.get('val')`, so an absent value and a Python
`None` both collapse to `vnull`), `status` and `result`. -/
structure NodeData where
  id : String
  ntype : NType
  val : Value
  status : Option Status
  result : Option Value
deriving Repr

/-- One directed edge of the workflow digraph; `pos` is the optional
`pos` attribute set from a link's `position` (absent on the untagged
port-to-step and step-to-port edges). -/
structure Edge where
  src : String
  dst : String
  pos : Option Int
deriving DecidableEq, Repr

/-- The workflow digraph.  The node list order is the (stable) graph
iteration order of `nodes_iter`; the edge list order is the insertion
order, which also determines `predecessors` / `in_edges` order. -/
structure Graph where
  nodes : List NodeData
  edges : List Edge
deriving Repr

/-- `self.g.node[i]`: the attribute record of node `i`. -/
def getNode (g : Graph) (i : String) : Option NodeData :=
  g.nodes.find? (fun nd => nd.id == i)

/-- In-place mutation of one node's attributes. -/
def updateNode (g : Graph) (i : String) (f : NodeData → NodeData) : Graph :=
  { g with nodes := g.nodes.map fun nd => if nd.id == i then f nd else nd }

/-- `self.g.in_edges(i, True)`: the inbound edges of `i` with data, in
graph-iteration order. -/
def inEdges (g : Graph) (i : String) : List Edge :=
  g.edges.filter (fun e => e.dst == i)

/-- `self.g.predecessors(i)`, in the same stable order as `inEdges`. -/
def preds (g : Graph) (i : String) : List String :=
  (inEdges g i).map (fun e => e.src)

/-- Embedding of `Workflow.set_inputs` (lines 170-173): for each
supplied key `k` set the `val` attribute of node `'#' + k`; a key with
no such node raises `KeyError`. -/
def set_inputs (g : Graph) : List (String × Value) → Except RunErr Graph
  | [] => .ok g
  | (k, v) :: rest =>
      if (getNode g ("#" ++ k)).isSome then
        set_inputs (updateNode g ("#" ++ k) (fun nd => { nd with val := v })) rest
      else .error .keyErr

/-- Embedding of `Workflow.finish` (lines 175-176): record the result
and mark the node done. -/
def finish (g : Graph) (i : String) (r : Value) : Graph :=
  updateNode g i (fun nd => { nd with status := some .done, result := some r })

/-- Characters of the final slash-separated segment: scan left to
right, restarting the accumulator at each slash. -/
def lastSegList (cur : List Char) : List Char → List Char
  | [] => cur.reverse
  | c :: cs => if c = '/' then lastSegList [] cs else lastSegList (c :: cur) cs

/-- `node.split('/')[-1]`: the substring after the final slash. -/
def lastSegment (s : String) : String :=
  ⟨lastSegList [] s.data⟩

/-- `self.g.node[i]['result']`: a missing node or a missing `result`
attribute raises `KeyError`. -/
def getResult (g : Graph) (i : String) : Except RunErr Value :=
  match getNode g i with
  | none => .error .keyErr
  | some nd =>
      match nd.result with
      | none => .error .keyErr
      | some r => .ok r

/-- The stored result of node `i`, defaulting to `vnull`; equals the
value `getResult` succeeds with. -/
def resOf (g : Graph) (i : String) : Value :=
  ((getNode g i).bind (fun nd => nd.result)).getD .vnull

/-- `edge[2].get('pos', 0)`: the sort key of an inbound edge. -/
def posKey (e : Edge) : Int := e.pos.getD 0

/-- Stable insertion of an edge into a key-sorted edge list: the new
edge goes in front of the first edge of key not smaller than its own,
i.e. before any equal-keyed edge that followed it originally. -/
def insertEdge (x : Edge) : List Edge → List Edge
  | [] => [x]
  | e :: es => if posKey x ≤ posKey e then x :: e :: es else e :: insertEdge x es

/-- Embedding of `edges.sort(key=lambda edge: edge[2].get('pos', 0))`:
Python's `list.sort` is a stable ascending sort, modelled as stable
insertion sort. -/
def sortEdges : List Edge → List Edge
  | [] => []
  | e :: es => insertEdge e (sortEdges es)

/-- The list comprehension `[self.g.node[e[0]]['result'] for e in
edges]`. -/
def resultsOf (g : Graph) : List Edge → Except RunErr (List Value)
  | [] => .ok []
  | e :: es => do
      let r ← getResult g e.src
      let rs ← resultsOf g es
      .ok (r :: rs)

/-- The dict comprehension `{p.split('/')[-1]: self.g.node[p]['result']
for p in pre}` of the step-node branch. -/
def predResults (g : Graph) : List String → Except RunErr (List (String × Value))
  | [] => .ok []
  | p :: ps => do
      let r ← getResult g p
      let rs ← predResults g ps
      .ok ((lastSegment p, r) :: rs)

/-- Embedding of `Workflow._make_val` (lines 211-222): no predecessor
yields the node's own `val`; a port with a single port predecessor
yields that predecessor's result; a port with a single step
predecessor projects the step result at the port id's last segment
(`.get`, so a missing key yields `vnull`, and a non-mapping result
raises); a port with several predecessors yields the predecessor
results ordered by the stable `pos` sort of its inbound edges; a step
yields the mapping from each predecessor's last id segment to its
result. -/
def make_val (g : Graph) (i : String) : Except RunErr Value :=
  match getNode g i with
  | none => .error .keyErr
  | some nd =>
      let pre := preds g i
      if pre = [] then .ok nd.val
      else if nd.ntype = .port ∧ pre.length = 1 then
        match getNode g (pre.headD "") with
        | none => .error .keyErr
        | some p =>
            match p.result with
            | none => .error .keyErr
            | some r =>
                if p.ntype = .port then .ok r
                else
                  match r with
                  | .vdict d => .ok ((List.lookup (lastSegment i) d).getD .vnull)
                  | _ => .error .typeErr
      else if nd.ntype = .port ∧ 1 < pre.length then do
        let rs ← resultsOf g (sortEdges (inEdges g i))
        .ok (.vlist rs)
      else do
        let rs ← predResults g pre
        .ok (.vdict rs)

/-- `all(p.get('status') == 'done' for p in pre)` inside
`Workflow.next`. -/
def allPredsDone (g : Graph) (i : String) : Bool :=
  (preds g i).all fun p =>
    match getNode g p with
    | some nd => nd.status == some .done
    | none => false

/-- The scan of `Workflow.next` (lines 178-187): the first node in
graph-iteration order that has no `status` and whose predecessors are
all done. -/
def findReady (g : Graph) : Option NodeData :=
  g.nodes.find? fun nd => nd.status == none && allPredsDone g nd.id

/-- Embedding of `Workflow.next`: pick the first ready node, store its
composed value in `val`, mark it `running`, and return it; `(none)`
when no node is ready. -/
def nextNode (g : Graph) : Except RunErr (Option (String × Graph)) :=
  match findReady g with
  | none => .ok none
  | some nd => do
      let v ← make_val g nd.id
      .ok (some (nd.id, updateNode g nd.id
        (fun n => { n with val := v, status := some .running })))

/-- Embedding of `Workflow.execute` (lines 189-194), with the step
implementations supplied as the map `impls` from node id to the
sub-runnable's `run`: a port node finishes with its own `val`; a step
node finishes with the result of running its implementation on its
`val`. -/
def executeNode (impls : String → Value → Except RunErr Value) (g : Graph)
    (i : String) : Except RunErr Graph :=
  match getNode g i with
  | none => .error .keyErr
  | some nd =>
      if nd.ntype = .port then .ok (finish g i nd.val)
      else do
        let r ← impls i nd.val
        .ok (finish g i r)

/-- The `while True` scheduler loop of `Workflow._run` (lines
198-204), with explicit fuel standing in for unbounded iteration:
repeatedly pick the next ready node and execute it, stopping when no
node is ready. -/
def runLoop (impls : String → Value → Except RunErr Value) (g : Graph) :
    Nat → Except RunErr Graph
  | 0 => .error .outOfFuel
  | fuel + 1 =>
      match nextNode g with
      | .error e => .error e
      | .ok none => .ok g
      | .ok (some (i, g₁)) =>
          match executeNode impls g₁ i with
          | .error e => .error e
          | .ok g₂ => runLoop impls g₂ fuel

/-- Embedding of `Workflow._make_outputs` (lines 206-209): for each
registered output bare name `k`, the `result` of node `'#' + k`. -/
def make_outputs (g : Graph) : List String → Except RunErr (List (String × Value))
  | [] => .ok []
  | k :: ks => do
      let r ← getResult g ("#" ++ k)
      let rs ← make_outputs g ks
      .ok ((k, r) :: rs)

/-- Embedding of `Workflow._run` (lines 196-204) on an instance whose
graph is `g` and whose registered output names are `keys`: set the
inputs, drain the scheduler, project the outputs, and return the final
graph (the mutated instance state) with the result mapping. -/
def wf_run (impls : String → Value → Except RunErr Value) (g : Graph)
    (keys : List String) (inputs : List (String × Value)) (fuel : Nat) :
    Except RunErr (Graph × List (String × Value)) := do
  let g₀ ← set_inputs g inputs
  let g₁ ← runLoop impls g₀ fuel
  let outs ← make_outputs g₁ keys
  .ok (g₁, outs)

/-- An `outputBinding` mapping as `CLTool._run` reads it: only its
optional `glob` field matters. -/
structure OutBinding where
  glob : Option String
deriving DecidableEq, Repr

/-- The `type` field of a declared output port as `CLTool._run`
inspects it: a plain string, a mapping (with an optional `type` string
and an optional nested `outputBinding`), or absent. -/
inductive OType where
  | s (name : String)
  | d (typeName : Option String) (binding : Option OutBinding)
  | absent
deriving DecidableEq, Repr

/-- One declared output port of a tool document. -/
structure OutPort where
  id : String
  type : OType
  outputBinding : Option OutBinding
deriving DecidableEq, Repr

/-- The adapter of an output port: the port-level `outputBinding`, or
failing that the binding nested in a mapping-valued `type`. -/
def adapterOf (o : OutPort) : Option OutBinding :=
  match o.outputBinding with
  | some b => some b
  | none =>
      match o.type with
      | .d _ b => b
      | _ => none

/-- The glob pattern `CLTool._run` expands for a port, when the port
is not skipped: the adapter's `glob`, unless absent or empty (the
source's falsiness test `not adapter.get('glob')`). -/
def effectiveGlob (o : OutPort) : Option String :=
  match adapterOf o with
  | none => none
  | some b =>
      match b.glob with
      | none => none
      | some "" => none
      | some pat => some pat

/-- `os.path.abspath` relative to the working directory `cwd`: paths
already starting with a slash are kept, others are joined to `cwd`. -/
def abspath (cwd p : String) : String :=
  if p.front = '/' then p else cwd ++ "/" ++ p

/-- The File handle mapping `{"@type": "File", "path": p}`. -/
def fileHandle (p : String) : Value :=
  .vdict [("@type", .vstr "File"), ("path", .vstr p)]

/-- The observable effects of one external process execution, as
`CLTool._run` consumes them: whether `os.system` returned zero, the
decoded `result.cwl.json` if that file exists in the working directory
afterwards, the working directory path, and the glob expander over
that directory. -/
structure ExecEnv where
  exitOk : Bool
  resultFile : Option Value
  cwd : String
  globber : String → List String

/-- One iteration of the output-collection loop of `CLTool._run`
(lines 118-130): resolve the adapter, skip the port when it has no
usable glob, expand the glob, then dispatch on the declared type.  A
`File` type (string or `type.type`) indexes the first match without an
emptiness check — an empty match list raises `IndexError`; an `array`
type emits File handles for all matches; a port whose `type` field is
absent raises `KeyError`, a non-`File` string type raises `TypeError`
(string indexing), a mapping type without a `type` key raises
`KeyError`, and any other mapping type falls through without emitting
an entry. -/
def collectOne (env : ExecEnv) (o : OutPort) : Except RunErr (Option (String × Value)) :=
  match effectiveGlob o with
  | none => .ok none
  | some pat =>
      let ms := env.globber pat
      match o.type with
      | .s name =>
          if name = "File" then
            match ms with
            | [] => .error .indexErr
            | m :: _ => .ok (some (stripId o.id, fileHandle (abspath env.cwd m)))
          else .error .typeErr
      | .d (some t) _ =>
          if t = "File" then
            match ms with
            | [] => .error .indexErr
            | m :: _ => .ok (some (stripId o.id, fileHandle (abspath env.cwd m)))
          else if t = "array" then
            .ok (some (stripId o.id, .vlist (ms.map fun p => fileHandle (abspath env.cwd p))))
          else .ok none
      | .d none _ => .error .keyErr
      | .absent => .error .keyErr

/-- The whole output-collection loop: accumulate the emitted entries
in declaration order. -/
def collectAll (env : ExecEnv) : List OutPort → Except RunErr (List (String × Value))
  | [] => .ok []
  | o :: os => do
      let r ← collectOne env o
      let rest ← collectAll env os
      .ok (match r with | some p => p :: rest | none => rest)

/-- Embedding of the result phase of `CLTool._run` (lines 111-132):
a non-zero process exit raises `ProcessFailed`; otherwise, if
`result.cwl.json` exists its decoded value is returned as the full
result; otherwise outputs are collected from the declared bindings.
(The earlier phases — argv assembly, working-directory creation and
job-record serialization — are external collaborators with no bearing
on the result value.) -/
def cltool_run (outs : List OutPort) (env : ExecEnv) : Except RunErr Value :=
  if !env.exitOk then .error .processFailed
  else
    match env.resultFile with
    | some v => .ok v
    | none => do
        let pairs ← collectAll env outs
        .ok (.vdict pairs)

/-- A `_run` body that ignores its inputs, for counterexamples. -/
def cBody : List (String × Value) → Except RunErr Value := fun _ => .ok .vnull

/-- C1 counterexample instance: port `a` is over-nested by one (the
only over-nested port) while port `b` is under-nested. -/
def declsX1 : List InPortDecl := [⟨"#a", some 0⟩, ⟨"#b", some 1⟩]

/-- Inputs for the C1 counterexample. -/
def inputsX1 : List (String × Value) := [("a", .vlist [.vnum 1]), ("b", .vnum 2)]

/-- C2 counterexample instance: port `p` is the only over-nested port
(by exactly one level) while port `q` is under-nested. -/
def declsX2 : List InPortDecl := [⟨"#p", some 0⟩, ⟨"#q", some 2⟩]

/-- Inputs for the C2 counterexample. -/
def inputsX2 : List (String × Value) := [("p", .vlist [.vnum 1, .vnum 2]), ("q", .vlist [.vnum 9])]

/-- C1 witness instances: two over-nested ports. -/
def declsWA : List InPortDecl := [⟨"#a", some 0⟩, ⟨"#b", some 0⟩]

/-- Inputs supplying both C1-witness ports one level deep. -/
def inputsWA : List (String × Value) := [("a", .vlist [.vnum 1]), ("b", .vlist [.vnum 2])]

/-- A single declared port of depth 1, for the under-nested branch. -/
def declsWB : List InPortDecl := [⟨"#u", some 1⟩]

/-- A scalar supplied for the depth-1 port. -/
def inputsWB : List (String × Value) := [("u", .vnum 1)]

/-- A single declared port of depth 0, for the unsupported branch. -/
def declsWC : List InPortDecl := [⟨"#w", some 0⟩]

/-- A doubly nested value supplied for the depth-0 port. -/
def inputsWC : List (String × Value) := [("w", .vlist [.vlist [.vnum 1]])]

/-- C2 witness declarations: one scalar port `x`. -/
def decls2w : List InPortDecl := [⟨"#x", some 0⟩]

/-- C2 witness inputs: `x` supplied one level deep. -/
def inputs2w : List (String × Value) := [("x", .vlist [.vnum 1, .vnum 2])]

/-- C2 witness body: echo the bound value of `x` under key `out`. -/
def body2w : List (String × Value) → Except RunErr Value :=
  fun i => .ok (.vdict [("out", (List.lookup "x" i).getD .vnull)])

/-- The per-element result dict the C2 witness body produces. -/
def f2w : Value → List (String × Value) := fun v => [("out", v)]

/-- A one-node workflow graph (a single workflow-level port `#x`). -/
def g3 : Graph := ⟨[⟨"#x", .port, .vnull, none, none⟩], []⟩

/-- The graph `g3` after one complete execution with input 7. -/
def g3done : Graph := ⟨[⟨"#x", .port, .vnum 7, some .done, some (.vnum 7)⟩], []⟩

/-- Step implementations for the `g3` instance (never invoked: the
graph has no step node). -/
def impls3 : String → Value → Except RunErr Value := fun _ v => .ok v

/-- C4 witness graph: port `#t` has three done predecessors, with
inbound edge positions 1, absent and 0 in graph order. -/
def g4 : Graph :=
  ⟨[⟨"#a", .port, .vnull, some .done, some (.vstr "ra")⟩,
    ⟨"#b", .port, .vnull, some .done, some (.vstr "rb")⟩,
    ⟨"#c", .port, .vnull, some .done, some (.vstr "rc")⟩,
    ⟨"#t", .port, .vnull, none, none⟩],
   [⟨"#a", "#t", some 1⟩, ⟨"#b", "#t", none⟩, ⟨"#c", "#t", some 0⟩]⟩

/-- C6 witness environment: process exited cleanly and left a
`result.cwl.json` decoding to the number 3. -/
def env6 : ExecEnv := ⟨true, some (.vnum 3), "/job", fun _ => ["stray.txt"]⟩

/-- A declared File output with a glob, for the C6/C9 witnesses. -/
def port9 : OutPort := ⟨"#output", .s "File", some ⟨some "out*.txt"⟩⟩

/-- C9 witness environment whose glob matches two files. -/
def env9 : ExecEnv := ⟨true, none, "/job", fun _ => ["out1.txt", "out2.txt"]⟩

/-- C9 witness environment whose glob matches nothing. -/
def env9e : ExecEnv := ⟨true, none, "/job", fun _ => []⟩

/-- The run-invariant part of a node's attributes: everything except
`val` (which `set_inputs` rewrites between runs). -/
def nodeSkel (nd : NodeData) : String × NType × Option Status × Option Value :=
  (nd.id, nd.ntype, nd.status, nd.result)

/-- Two graph states that differ at most in node `val` attributes:
same edges, and entrywise the same id, type, status and result. -/
def SameSkeleton (g g' : Graph) : Prop :=
  g'.edges = g.edges ∧ g'.nodes.map nodeSkel = g.nodes.map nodeSkel

theorem isList_listify (v : Value) : (listifyProperties v).isList = v.isList := by
  cases v <;> rfl

theorem isList_normWith (ks : List String) (v : Value) :
    (normWith ks v).isList = v.isList := by
  cases v <;> rfl

mutual
theorem listify_idem : ∀ v, listifyProperties (listifyProperties v) = listifyProperties v
  | .vnull => rfl
  | .vbool _ => rfl
  | .vnum _ => rfl
  | .vstr _ => rfl
  | .vlist xs => by
      simp only [listifyProperties]
      rw [listifyList_idem xs]
  | .vdict kvs => by
      simp only [listifyProperties]
      rw [listifyDict_idem kvs]

theorem listifyList_idem : ∀ xs, listifyList (listifyList xs) = listifyList xs
  | [] => rfl
  | x :: xs => by
      simp only [listifyList]
      rw [listify_idem x, listifyList_idem xs]

theorem listifyDict_idem : ∀ kvs, listifyDict (listifyDict kvs) = listifyDict kvs
  | [] => rfl
  | (k, v) :: kvs => by
      by_cases h : k ∈ props ∧ ¬ v.isList
      · simp only [listifyDict, if_pos h]
        have h2 : ¬ (k ∈ props ∧ ¬ (Value.vlist [listifyProperties v]).isList) := by
          simp [Value.isList]
        simp only [if_neg h2]
        rw [listifyDict_idem kvs]
        simp only [listifyProperties, listifyList]
        rw [listify_idem v]
      · simp only [listifyDict, if_neg h]
        have h2 : ¬ (k ∈ props ∧ ¬ (listifyProperties v).isList) := by
          rw [isList_listify]; exact h
        simp only [if_neg h2]
        rw [listify_idem v, listifyDict_idem kvs]
end

mutual
theorem listify_eq_amended : ∀ v, listifyProperties v = normWith props v
  | .vnull => rfl
  | .vbool _ => rfl
  | .vnum _ => rfl
  | .vstr _ => rfl
  | .vlist xs => by
      simp only [listifyProperties, normWith]
      rw [listifyList_eq_amended xs]
  | .vdict kvs => by
      simp only [listifyProperties, normWith]
      rw [listifyDict_eq_amended kvs]

theorem listifyList_eq_amended : ∀ xs, listifyList xs = normListWith props xs
  | [] => rfl
  | x :: xs => by
      simp only [listifyList, normListWith]
      rw [listify_eq_amended x, listifyList_eq_amended xs]

theorem listifyDict_eq_amended : ∀ kvs, listifyDict kvs = normDictWith props kvs
  | [] => rfl
  | (k, v) :: kvs => by
      by_cases h : k ∈ props ∧ ¬ v.isList
      · simp only [listifyDict, normDictWith, if_pos h]
        rw [listify_eq_amended v, listifyDict_eq_amended kvs]
      · simp only [listifyDict, normDictWith, if_neg h]
        rw [listify_eq_amended v, listifyDict_eq_amended kvs]
end

/-- C8: normalization is idempotent: for every tree of Values,
applying the document normalizer `listify_properties` twice yields the
same tree as applying it once. -/
theorem c8_normalize_idempotent (v : Value) :
    listifyProperties (listifyProperties v) = listifyProperties v :=
  listify_idem v

/-- C5 counterexample: claim C5 includes `inputBindings` in the
reserved key set, so it requires the mapping `("inputBindings" : 1)` to
normalize to `("inputBindings" : [1])`, but the source's
`listify_properties` (whose `props` tuple has no `inputBindings`)
leaves it untouched. -/
theorem c5_counterexample :
    listifyProperties (.vdict [("inputBindings", .vnum 1)]) =
        .vdict [("inputBindings", .vnum 1)] ∧
    claimedNormalize (.vdict [("inputBindings", .vnum 1)]) =
        .vdict [("inputBindings", .vlist [.vnum 1])] ∧
    listifyProperties (.vdict [("inputBindings", .vnum 1)]) ≠
        claimedNormalize (.vdict [("inputBindings", .vnum 1)]) :=
  ⟨rfl, rfl, by
    simp [listifyProperties, listifyDict, claimedNormalize, normWith, normDictWith,
      claimedProps, props, Value.isList]⟩

/-- C5 (amended): the document normalizer, at every mapping node,
replaces the value of each key in the reserved SEVEN-key set
(`inputs`, `outputs`, `links`, `baseCmd`, `arguments`, `schemaDefs`,
`steps` — the source set, without `inputBindings`) with a
single-element sequence containing that value whenever the value is
not already a sequence, and recurses into every sequence element and
mapping value. -/
theorem c5_normalizer_amended (v : Value) : listifyProperties v = amendedNormalize v :=
  listify_eq_amended v

/-- C7 counterexample: the snippet consisting of the single character
`'\x7b'` begins with a brace, so claim C7 requires it to be used
verbatim as a statement body, but the source's `len(js) > 1` guard
wraps it instead; moreover the source's wrapping template has no
spaces, unlike the claim's `'\x7b return (snippet); \x7d'`. -/
theorem c7_counterexample :
    wrapSource "\x7b" = "\x7breturn (\x7b);\x7d" ∧
    claimedWrapSource "\x7b" = "\x7b" ∧
    wrapSource "\x7b" ≠ claimedWrapSource "\x7b" ∧
    wrapSource "x" = "\x7breturn (x);\x7d" ∧
    claimedWrapSource "x" = "\x7b return (x); \x7d" ∧
    wrapSource "x" ≠ claimedWrapSource "x" :=
  ⟨rfl, rfl, by decide, rfl, rfl, by decide⟩

/-- C7 (amended): a source snippet is used verbatim as a statement
body exactly when it has length greater than one and begins with
`'\x7b'`; any other snippet is wrapped as `'\x7breturn (snippet);\x7d'`
before evaluation. -/
theorem c7_wrap_amended (js : String) : wrapSource js = amendedWrapSource js := by
  unfold wrapSource amendedWrapSource
  by_cases h1 : 1 < js.length
  · by_cases h2 : js.front = lbrace
    · simp [h1, h2]
    · simp [h1, h2]
  · simp [h1]

theorem lookup_mem : ∀ (l : List (String × Value)) (k : String) (v : Value),
    List.lookup k l = some v → (k, v) ∈ l
  | [], _, _, h => by simp [List.lookup] at h
  | (a, b) :: t, k, v, h => by
      by_cases hk : k = a
      · subst hk
        simp [List.lookup] at h
        simp [h]
      · have hne : (k == a) = false := by simp [hk]
        simp only [List.lookup, hne] at h
        exact List.mem_cons_of_mem _ (lookup_mem t k v h)

theorem depthsMatch_false_of_mismatch (decls : List InPortDecl)
    (inputs : List (String × Value)) (t : String × Nat × Nat)
    (h : t ∈ mismatchList decls inputs) : depthsMatch decls inputs = false := by
  unfold mismatchList at h
  rw [List.mem_filterMap] at h
  obtain ⟨k, _, hf⟩ := h
  cases hlk : List.lookup k inputs with
  | none =>
      rw [hlk] at hf
      cases expectedOf decls k <;> simp at hf
  | some v =>
      cases hexp : expectedOf decls k with
      | none => rw [hlk, hexp] at hf; simp at hf
      | some e =>
          rw [hlk, hexp] at hf
          by_cases hd : depthOf v = e
          · simp [hd] at hf
          · have hmem := lookup_mem inputs k v hlk
            rw [Bool.eq_false_iff]
            intro hall
            rw [depthsMatch, List.all_eq_true] at hall
            have := hall (k, v) hmem
            rw [hexp] at this
            simp at this
            exact hd this

theorem scatterRuns_ok (body : List (String × Value) → Except RunErr Value)
    (inputs : List (String × Value)) (k : String) (f : Value → List (String × Value)) :
    ∀ items, (∀ x ∈ items, body (setKey inputs k x) = .ok (.vdict (f x))) →
      scatterRuns body inputs k items = .ok (items.map fun x => .vdict (f x))
  | [], _ => rfl
  | x :: xs, h => by
      have h1 : body (setKey inputs k x) = .ok (.vdict (f x)) :=
        h x (List.mem_cons_self x xs)
      have h2 : scatterRuns body inputs k xs = .ok (xs.map fun y => .vdict (f y)) :=
        scatterRuns_ok body inputs k f xs fun y hy => h y (List.mem_cons_of_mem x hy)
      simp only [scatterRuns, h1, h2, List.map_cons]
      rfl

theorem toDicts_ok : ∀ ds : List (List (String × Value)),
    toDicts (ds.map Value.vdict) = .ok ds
  | [] => rfl
  | d :: ds => by
      simp only [List.map_cons, toDicts, toDicts_ok ds]
      rfl

theorem mem_foldl_keys (k : String) : ∀ (ds : List (List (String × Value)))
    (acc : List String),
    (k ∈ ds.foldl (fun a d => a ++ d.map Prod.fst) acc ↔
      k ∈ acc ∨ ∃ d ∈ ds, k ∈ d.map Prod.fst)
  | [], acc => by simp
  | d :: ds, acc => by
      rw [List.foldl_cons, mem_foldl_keys k ds (acc ++ d.map Prod.fst)]
      simp [List.mem_append, or_assoc]

theorem mem_keyUnion (k : String) (ds : List (List (String × Value))) :
    k ∈ keyUnion ds ↔ ∃ d ∈ ds, k ∈ d.map Prod.fst := by
  unfold keyUnion
  rw [List.mem_dedup, mem_foldl_keys]
  simp

theorem lookup_map_pairs (F : String → Value) :
    ∀ (ks : List String) (k : String),
      List.lookup k (ks.map fun a => (a, F a)) =
        if k ∈ ks then some (F k) else none
  | [], k => by simp [List.lookup]
  | a :: ks, k => by
      by_cases hk : k = a
      · subst hk
        simp [List.lookup]
      · have hne : (k == a) = false := by simp [hk]
        simp only [List.map_cons, List.lookup, hne]
        rw [lookup_map_pairs F ks k]
        simp [List.mem_cons, hk]

theorem aggregate_lookup (ds : List (List (String × Value))) (k : String) :
    List.lookup k (aggregate ds) =
      if k ∈ keyUnion ds then
        some (.vlist (ds.map fun d => (List.lookup k d).getD .vnull))
      else none :=
  lookup_map_pairs _ (keyUnion ds) k

theorem except_bind_ok {α β : Type} (a : α) (g : α → Except RunErr β) :
    (Except.ok a : Except RunErr α) >>= g = g a := rfl

theorem runApp_single_mismatch (decls : List InPortDecl)
    (body : List (String × Value) → Except RunErr Value)
    (inputs : List (String × Value)) (k : String) (e a : Nat)
    (hne : depthsMatch decls inputs = false)
    (hm : mismatchList decls inputs = [(k, e, a)]) :
    runApp decls body inputs =
      (if a < e then .error .underNested
       else if a - e ≠ 1 then .error .scatterUnsupported
       else
         match List.lookup k inputs with
         | some (.vlist items) => do
             let rs ← scatterRuns body inputs k items
             let ds ← toDicts rs
             .ok (.vdict (aggregate ds))
         | _ => .error .typeErr) := by
  unfold runApp
  rw [hne, hm]
  rfl

theorem runApp_scatter_eq (decls : List InPortDecl)
    (body : List (String × Value) → Except RunErr Value)
    (inputs : List (String × Value)) (k : String) (e : Nat) (items : List Value)
    (f : Value → List (String × Value))
    (hm : mismatchList decls inputs = [(k, e, e + 1)])
    (hlk : List.lookup k inputs = some (.vlist items))
    (hbody : ∀ x ∈ items, body (setKey inputs k x) = .ok (.vdict (f x))) :
    runApp decls body inputs = .ok (.vdict (aggregate (items.map f))) := by
  have hne : depthsMatch decls inputs = false :=
    depthsMatch_false_of_mismatch decls inputs _ (hm ▸ List.mem_singleton_self _)
  have hgap : ¬ ((e + 1) - e ≠ 1) := by omega
  rw [runApp_single_mismatch decls body inputs k e (e + 1) hne hm,
    if_neg (by omega : ¬ (e + 1 < e)), if_neg hgap, hlk]
  dsimp only
  rw [scatterRuns_ok body inputs k f items hbody]
  have hmm : items.map (fun x => Value.vdict (f x)) = (items.map f).map Value.vdict := by
    rw [List.map_map]; rfl
  rw [hmm, except_bind_ok, toDicts_ok, except_bind_ok]

/-- C2 counterexample: in `declsX2` and `inputsX2`, port `p` is the
only over-nested supplied port and it is over-nested by exactly one
level (the mismatch dict is `[(p, 0, 1), (q, 2, 1)]`), so claim C2
requires `run` to scatter and return a result, yet the source raises
the ambiguity error because a second port (`q`) is under-nested. -/
theorem c2_counterexample :
    mismatchList declsX2 inputsX2 = [("p", 0, 1), ("q", 2, 1)] ∧
    overCount declsX2 inputsX2 = 1 ∧
    runApp declsX2 cBody inputsX2 = .error .scatterAmbiguous ∧
    (runApp declsX2 cBody inputsX2).isOk = false :=
  ⟨rfl, rfl, rfl, rfl⟩

/-- C2 (amended): when the depth comparison yields exactly one
mismatched supplied port and that port is over-nested by exactly one
level, `run` scatters: for each element `x` of that port's list (in
list order) it invokes `_run` on the inputs with that port bound to
`x`, and returns a mapping whose key set is the union of the per-
element result keys, where each key's value is the ordered sequence of
the per-element lookups (null when missing), every such sequence
having exactly as many elements as the scattered list. -/
theorem c2_scatter_behavior (decls : List InPortDecl)
    (body : List (String × Value) → Except RunErr Value)
    (inputs : List (String × Value)) (k : String) (e : Nat) (items : List Value)
    (f : Value → List (String × Value))
    (hm : mismatchList decls inputs = [(k, e, e + 1)])
    (hlk : List.lookup k inputs = some (.vlist items))
    (hbody : ∀ x ∈ items, body (setKey inputs k x) = .ok (.vdict (f x))) :
    runApp decls body inputs = .ok (.vdict (aggregate (items.map f))) ∧
    (∀ k', (List.lookup k' (aggregate (items.map f))).isSome ↔
        ∃ d ∈ items.map f, k' ∈ d.map Prod.fst) ∧
    (∀ k' v, List.lookup k' (aggregate (items.map f)) = some v →
        v = .vlist ((items.map f).map fun d => (List.lookup k' d).getD .vnull)) ∧
    (∀ k' l, List.lookup k' (aggregate (items.map f)) = some (.vlist l) →
        l.length = items.length) := by
  refine ⟨runApp_scatter_eq decls body inputs k e items f hm hlk hbody, ?_, ?_, ?_⟩
  · intro k'
    rw [aggregate_lookup, ← mem_keyUnion k' (items.map f)]
    by_cases h : k' ∈ keyUnion (items.map f) <;> simp [h]
  · intro k' v hv
    rw [aggregate_lookup] at hv
    by_cases h : k' ∈ keyUnion (items.map f)
    · rw [if_pos h] at hv
      exact (Option.some_inj.mp hv).symm
    · rw [if_neg h] at hv
      cases hv
  · intro k' l hl
    rw [aggregate_lookup] at hl
    by_cases h : k' ∈ keyUnion (items.map f)
    · rw [if_pos h] at hl
      have := Option.some_inj.mp hl
      have hlen : l = (items.map f).map fun d => (List.lookup k' d).getD .vnull := by
        cases this
        rfl
      rw [hlen, List.length_map, List.length_map]
    · rw [if_neg h] at hl
      cases hl

/-- C2 witness: scattering the one-port runnable `decls2w` over
`[1, 2]` with the echoing body `body2w` yields the aggregated
mapping. -/
theorem c2_witness :
    runApp decls2w body2w inputs2w =
      .ok (.vdict (aggregate (List.map f2w [.vnum 1, .vnum 2]))) :=
  (c2_scatter_behavior decls2w body2w inputs2w "x" 0 [.vnum 1, .vnum 2] f2w
    (by decide) rfl
    (by
      intro x hx
      simp only [List.mem_cons, List.not_mem_nil, or_false] at hx
      rcases hx with rfl | rfl <;> rfl)).1

/-- C1 counterexample: in `declsX1` and `inputsX1` exactly one port is
over-nested (`a`, by one level) while `b` is under-nested (actual 0,
expected 1); claim C1 therefore requires the `UnderNested` failure,
but the source counts BOTH mismatches and raises the ambiguity error
(`Depth mismatch on more than one port`). -/
theorem c1_counterexample :
    mismatchList declsX1 inputsX1 = [("a", 0, 1), ("b", 1, 0)] ∧
    overCount declsX1 inputsX1 = 1 ∧
    (∃ t ∈ mismatchList declsX1 inputsX1, t.2.2 < t.2.1) ∧
    runApp declsX1 cBody inputsX1 = .error .scatterAmbiguous ∧
    RunErr.scatterAmbiguous ≠ RunErr.underNested :=
  ⟨rfl, rfl, by decide, rfl, by decide⟩

/-- C1 (amended): the mismatch policy of `run` counts mismatched ports
in either direction: if more than one supplied declared port has a
depth mismatch, `run` fails with `ScatterAmbiguous`; otherwise, if the
single mismatched port has actual depth less than expected, it fails
with `UnderNested`; otherwise, if that port's actual minus expected
depth is not 1, it fails with `ScatterUnsupported`. -/
theorem c1_mismatch_policy (decls : List InPortDecl)
    (body : List (String × Value) → Except RunErr Value)
    (inputs : List (String × Value)) :
    (2 ≤ (mismatchList decls inputs).length →
        runApp decls body inputs = .error .scatterAmbiguous) ∧
    (∀ k e a, mismatchList decls inputs = [(k, e, a)] → a < e →
        runApp decls body inputs = .error .underNested) ∧
    (∀ k e a, mismatchList decls inputs = [(k, e, a)] → e ≤ a → a - e ≠ 1 →
        runApp decls body inputs = .error .scatterUnsupported) := by
    refine ⟨?_, ?_, ?_⟩
    · intro hlen
      cases hl : mismatchList decls inputs with
      | nil => rw [hl] at hlen; simp at hlen
      | cons t1 tl =>
          cases tl with
          | nil => rw [hl] at hlen; simp at hlen
          | cons t2 tl2 =>
              have hne : depthsMatch decls inputs = false :=
                depthsMatch_false_of_mismatch decls inputs t1
                  (hl ▸ List.mem_cons_self _ _)
              unfold runApp
              rw [hne, hl]
              rfl
    · intro k e a hl hlt
      have hne : depthsMatch decls inputs = false :=
        depthsMatch_false_of_mismatch decls inputs _ (hl ▸ List.mem_singleton_self _)
      rw [runApp_single_mismatch decls body inputs k e a hne hl, if_pos hlt]
    · intro k e a hl hle hgap
      have hne : depthsMatch decls inputs = false :=
        depthsMatch_false_of_mismatch decls inputs _ (hl ▸ List.mem_singleton_self _)
      rw [runApp_single_mismatch decls body inputs k e a hne hl,
        if_neg (by omega : ¬ a < e), if_pos hgap]

/-- C1 witness: each of the three error branches fires at a concrete
instance: two over-nested ports, one under-nested port, one port
over-nested by two levels. -/
theorem c1_witness :
    runApp declsWA cBody inputsWA = .error .scatterAmbiguous ∧
    runApp declsWB cBody inputsWB = .error .underNested ∧
    runApp declsWC cBody inputsWC = .error .scatterUnsupported :=
  ⟨(c1_mismatch_policy declsWA cBody inputsWA).1 (by decide),
   (c1_mismatch_policy declsWB cBody inputsWB).2.1 "u" 1 0 (by decide) (by decide),
   (c1_mismatch_policy declsWC cBody inputsWC).2.2 "w" 0 2 (by decide) (by decide)
     (by decide)⟩

/-- C6: for every process execution by `CLTool._run` (that passed the
exit-status check): if `result.cwl.json` exists in the working
directory its decoded value is returned as the full result mapping —
independently of the declared output ports and of the glob expander,
so binding-based collection is not performed — and only when that file
is absent is the result assembled from the declared output
bindings. -/
theorem cltool_run_result_file (outs : List OutPort) (env : ExecEnv) (v : Value)
    (hexit : env.exitOk = true) (hv : env.resultFile = some v) :
    cltool_run outs env = .ok v := by
  unfold cltool_run
  rw [hexit, hv]
  rfl

theorem c6_result_file_precedence (outs : List OutPort) (env : ExecEnv)
    (hexit : env.exitOk = true) :
    (∀ v, env.resultFile = some v → cltool_run outs env = .ok v) ∧
    (∀ v gl, env.resultFile = some v →
        cltool_run outs { env with globber := gl } = cltool_run outs env) ∧
    (∀ v outs', env.resultFile = some v →
        cltool_run outs' env = cltool_run outs env) ∧
    (∀ ps, env.resultFile = none → collectAll env outs = .ok ps →
        cltool_run outs env = .ok (.vdict ps)) ∧
    (∀ err, env.resultFile = none → collectAll env outs = .error err →
        cltool_run outs env = .error err) := by
  refine ⟨?_, ?_, ?_, ?_, ?_⟩
  · intro v hv
    exact cltool_run_result_file outs env v hexit hv
  · intro v gl hv
    rw [cltool_run_result_file outs { env with globber := gl } v hexit hv,
      cltool_run_result_file outs env v hexit hv]
  · intro v outs' hv
    rw [cltool_run_result_file outs' env v hexit hv,
      cltool_run_result_file outs env v hexit hv]
  · intro ps hv hc
    unfold cltool_run
    rw [hexit, hv]
    dsimp only
    rw [hc, except_bind_ok]
    rfl
  · intro err hv hc
    unfold cltool_run
    rw [hexit, hv]
    dsimp only
    rw [hc]
    rfl

/-- C6 witness: with a clean exit and a `result.cwl.json` decoding to
3, the tool run returns 3 regardless of the declared File port. -/
theorem c6_witness : cltool_run [port9] env6 = .ok (.vnum 3) :=
  (c6_result_file_precedence [port9] env6 rfl).1 (.vnum 3) rfl

/-- C9: in the binding-based output collection of `CLTool._run`, a
declared output port of type `File` with a glob binding indexes the
first glob match without an emptiness check: with at least one match,
a File handle with the absolute path of the first match is emitted
under the bare port name; with no matches, the unguarded index raises
the out-of-range error, which is none of the engine's declared error
kinds. -/
theorem c9_file_glob_indexing (env : ExecEnv) (o : OutPort) (pat : String)
    (hglob : effectiveGlob o = some pat)
    (hfile : o.type = .s "File" ∨ ∃ b, o.type = .d (some "File") b) :
    (∀ m ms, env.globber pat = m :: ms →
        collectOne env o = .ok (some (stripId o.id, fileHandle (abspath env.cwd m)))) ∧
    (env.globber pat = [] → collectOne env o = .error .indexErr) ∧
    RunErr.indexErr ∉ [RunErr.scatterAmbiguous, RunErr.underNested,
      RunErr.scatterUnsupported, RunErr.processFailed, RunErr.expressionFailure] := by
  refine ⟨?_, ?_, by decide⟩
  · intro m ms hgl
    unfold collectOne
    rw [hglob]
    dsimp only
    rcases hfile with hty | ⟨b, hty⟩ <;> rw [hty] <;> dsimp only <;>
      rw [if_pos rfl, hgl]
  · intro hgl
    unfold collectOne
    rw [hglob]
    dsimp only
    rcases hfile with hty | ⟨b, hty⟩ <;> rw [hty] <;> dsimp only <;>
      rw [if_pos rfl, hgl]

/-- C9 witness: the concrete File port `port9`: two glob matches emit
the handle of the first match's absolute path; zero matches hit the
index error. -/
theorem c9_witness :
    collectOne env9 port9 = .ok (some ("output", fileHandle "/job/out1.txt")) ∧
    collectOne env9e port9 = .error .indexErr := by
  constructor
  · exact (c9_file_glob_indexing env9 port9 "out*.txt" rfl (Or.inl rfl)).1
      "out1.txt" ["out2.txt"] rfl
  · exact (c9_file_glob_indexing env9e port9 "out*.txt" rfl (Or.inl rfl)).2.1 rfl

theorem insertEdge_perm (x : Edge) : ∀ l : List Edge, List.Perm (insertEdge x l) (x :: l)
  | [] => List.Perm.refl _
  | e :: es => by
      unfold insertEdge
      by_cases h : posKey x ≤ posKey e
      · rw [if_pos h]
      · rw [if_neg h]
        exact ((insertEdge_perm x es).cons e).trans (List.Perm.swap x e es)

theorem sortEdges_perm : ∀ l : List Edge, List.Perm (sortEdges l) l
  | [] => List.Perm.refl _
  | e :: es => (insertEdge_perm e (sortEdges es)).trans ((sortEdges_perm es).cons e)

theorem insertEdge_sorted (x : Edge) {l : List Edge}
    (h : List.Sorted (fun a b => posKey a ≤ posKey b) l) :
    List.Sorted (fun a b => posKey a ≤ posKey b) (insertEdge x l) := by
  induction l with
  | nil => simp [insertEdge]
  | cons e es ih =>
      rw [List.sorted_cons] at h
      unfold insertEdge
      by_cases hc : posKey x ≤ posKey e
      · rw [if_pos hc, List.sorted_cons]
        refine ⟨?_, List.sorted_cons.mpr h⟩
        intro b hb
        rcases List.mem_cons.mp hb with rfl | hb
        · exact hc
        · exact le_trans hc (h.1 b hb)
      · rw [if_neg hc, List.sorted_cons]
        refine ⟨?_, ih h.2⟩
        intro b hb
        rcases List.mem_cons.mp ((insertEdge_perm x es).mem_iff.mp hb) with rfl | hb
        · omega
        · exact h.1 b hb

theorem sortEdges_sorted : ∀ l : List Edge,
    List.Sorted (fun a b => posKey a ≤ posKey b) (sortEdges l)
  | [] => List.sorted_nil
  | e :: es => insertEdge_sorted e (sortEdges_sorted es)

theorem insertEdge_filter (x : Edge) (p : Int) : ∀ l : List Edge,
    (insertEdge x l).filter (fun e => posKey e == p) =
      if posKey x = p then x :: l.filter (fun e => posKey e == p)
      else l.filter (fun e => posKey e == p)
  | [] => by
      by_cases hp : posKey x = p <;>
        simp [insertEdge, List.filter_cons, hp]
  | e :: es => by
      unfold insertEdge
      by_cases hc : posKey x ≤ posKey e
      · rw [if_pos hc]
        by_cases hp : posKey x = p <;> simp [List.filter_cons, hp]
      · rw [if_neg hc]
        have hx := insertEdge_filter x p es
        by_cases hp : posKey x = p
        · have hep : ¬ posKey e = p := by omega
          rw [if_pos hp] at hx
          simp [List.filter_cons, hx, hp, hep]
        · rw [if_neg hp] at hx
          by_cases hee : posKey e = p <;> simp [List.filter_cons, hx, hp, hee]

theorem sortEdges_filter (p : Int) : ∀ l : List Edge,
    (sortEdges l).filter (fun e => posKey e == p) =
      l.filter (fun e => posKey e == p)
  | [] => rfl
  | e :: es => by
      unfold sortEdges
      rw [insertEdge_filter e p (sortEdges es), sortEdges_filter p es]
      by_cases hp : posKey e = p <;> simp [List.filter_cons, hp]

theorem sortEdges_nopos (l : List Edge) (h : ∀ e ∈ l, e.pos = none) :
    sortEdges l = l := by
  have hall : ∀ e ∈ l, posKey e = 0 := fun e he => by simp [posKey, h e he]
  have hs : ∀ e ∈ sortEdges l, posKey e = 0 := fun e he =>
    hall e ((sortEdges_perm l).mem_iff.mp he)
  have h1 : (sortEdges l).filter (fun e => posKey e == 0) = sortEdges l :=
    List.filter_eq_self.mpr fun e he => by simp [hs e he]
  have h2 : l.filter (fun e => posKey e == 0) = l :=
    List.filter_eq_self.mpr fun e he => by simp [hall e he]
  rw [← h1, sortEdges_filter 0 l, h2]

theorem resultsOf_ok (g : Graph) : ∀ es : List Edge,
    (∀ e ∈ es, getResult g e.src = .ok (resOf g e.src)) →
    resultsOf g es = .ok (es.map fun e => resOf g e.src)
  | [], _ => rfl
  | e :: es, h => by
      have h1 := h e (List.mem_cons_self e es)
      have h2 := resultsOf_ok g es fun e' he => h e' (List.mem_cons_of_mem e he)
      simp only [resultsOf, h1, h2, List.map_cons]
      rfl

theorem make_val_multi (g : Graph) (i : String) (nd : NodeData)
    (hnd : getNode g i = some nd) (hport : nd.ntype = .port)
    (hlen : 1 < (preds g i).length)
    (hres : ∀ e ∈ inEdges g i, getResult g e.src = .ok (resOf g e.src)) :
    make_val g i =
      .ok (.vlist ((sortEdges (inEdges g i)).map fun e => resOf g e.src)) := by
  unfold make_val
  rw [hnd]
  dsimp only
  have hne : ¬ (preds g i = []) := by
    intro h0
    rw [h0] at hlen
    simp at hlen
  rw [if_neg hne]
  have h1 : ¬ (nd.ntype = NType.port ∧ (preds g i).length = 1) := by
    rintro ⟨_, hl⟩
    omega
  rw [if_neg h1, if_pos ⟨hport, hlen⟩]
  have hsort : ∀ e ∈ sortEdges (inEdges g i), getResult g e.src = .ok (resOf g e.src) :=
    fun e he => hres e ((sortEdges_perm _).mem_iff.mp he)
  rw [resultsOf_ok g _ hsort, except_bind_ok]

/-- C4: when a port node has more than one predecessor, `_make_val`
composes the ordered sequence of the predecessors' results sorted
ascending by the inbound edge's `pos`; the sort is stable (each
`pos`-class keeps its graph-iteration order), a missing `pos` counts
as 0, and when no inbound edge carries a `pos` the list is exactly the
stable graph-iteration order of the edges. -/
theorem c4_make_val_multi_pred (g : Graph) (i : String) (nd : NodeData)
    (hnd : getNode g i = some nd) (hport : nd.ntype = .port)
    (hlen : 1 < (preds g i).length)
    (hres : ∀ e ∈ inEdges g i, getResult g e.src = .ok (resOf g e.src)) :
    make_val g i =
      .ok (.vlist ((sortEdges (inEdges g i)).map fun e => resOf g e.src)) ∧
    List.Sorted (fun a b => posKey a ≤ posKey b) (sortEdges (inEdges g i)) ∧
    List.Perm (sortEdges (inEdges g i)) (inEdges g i) ∧
    (∀ p : Int, (sortEdges (inEdges g i)).filter (fun e => posKey e == p) =
        (inEdges g i).filter (fun e => posKey e == p)) ∧
    ((∀ e ∈ inEdges g i, e.pos = none) →
        make_val g i = .ok (.vlist ((inEdges g i).map fun e => resOf g e.src))) := by
  refine ⟨make_val_multi g i nd hnd hport hlen hres, sortEdges_sorted _,
    sortEdges_perm _, fun p => sortEdges_filter p _, fun hno => ?_⟩
  rw [make_val_multi g i nd hnd hport hlen hres, sortEdges_nopos _ hno]

/-- C4 witness: at the concrete graph `g4`, the three predecessor
results of `#t` arrive ordered by edge positions 1, absent, 0 and
compose to the stably sorted list `[rb, rc, ra]`. -/
theorem c4_witness :
    make_val g4 "#t" = .ok (.vlist [.vstr "rb", .vstr "rc", .vstr "ra"]) := by
  have h := (c4_make_val_multi_pred g4 "#t" ⟨"#t", .port, .vnull, none, none⟩
    rfl rfl (by decide) ?_).1
  · exact h
  · intro e he
    have hIn : inEdges g4 "#t" =
        [⟨"#a", "#t", some 1⟩, ⟨"#b", "#t", none⟩, ⟨"#c", "#t", some 0⟩] := rfl
    rw [hIn] at he
    simp only [List.mem_cons, List.not_mem_nil, or_false] at he
    rcases he with rfl | rfl | rfl <;> rfl

theorem id_if_update (i : String) (f : NodeData → NodeData)
    (hf : ∀ nd, (f nd).id = nd.id) (nd : NodeData) :
    (if nd.id == i then f nd else nd).id = nd.id := by
  by_cases h : nd.id == i
  · rw [if_pos h, hf]
  · rw [if_neg h]

theorem getNode_updateNode (g : Graph) (i j : String) (f : NodeData → NodeData)
    (hf : ∀ nd, (f nd).id = nd.id) :
    getNode (updateNode g i f) j =
      (getNode g j).map fun nd => if nd.id == i then f nd else nd := by
  unfold getNode updateNode
  dsimp only
  rw [List.find?_map]
  have hp : ((fun nd : NodeData => nd.id == j) ∘ fun nd => if nd.id == i then f nd else nd)
      = fun nd : NodeData => nd.id == j := by
    funext nd
    simp only [Function.comp_apply]
    rw [id_if_update i f hf nd]
  rw [hp]

theorem getNode_updateNode_eq (g : Graph) (i : String) (f : NodeData → NodeData)
    (hf : ∀ nd, (f nd).id = nd.id) :
    getNode (updateNode g i f) i = (getNode g i).map f := by
  rw [getNode_updateNode g i i f hf]
  cases h : getNode g i with
  | none => rfl
  | some nd =>
      have h' : List.find? (fun nd : NodeData => nd.id == i) g.nodes = some nd := h
      have hnd := List.find?_some h'
      simp only [] at hnd
      simp only [Option.map_some']
      rw [if_pos hnd]

theorem getNode_updateNode_ne (g : Graph) (i j : String) (f : NodeData → NodeData)
    (hf : ∀ nd, (f nd).id = nd.id) (hne : j ≠ i) :
    getNode (updateNode g i f) j = getNode g j := by
  rw [getNode_updateNode g i j f hf]
  cases h : getNode g j with
  | none => rfl
  | some nd =>
      have h' : List.find? (fun nd : NodeData => nd.id == j) g.nodes = some nd := h
      have hnd := List.find?_some h'
      have hj : nd.id = j := by simpa using hnd
      have hni : (nd.id == i) = false := by simp [hj, hne]
      simp [Option.map, hni]

theorem skeleton_refl (g : Graph) : SameSkeleton g g := ⟨rfl, rfl⟩

theorem skeleton_trans {g g' g'' : Graph} (h1 : SameSkeleton g g')
    (h2 : SameSkeleton g' g'') : SameSkeleton g g'' :=
  ⟨h2.1.trans h1.1, h2.2.trans h1.2⟩

theorem updateNode_skeleton (g : Graph) (i : String) (v : Value) :
    SameSkeleton g (updateNode g i fun nd => { nd with val := v }) := by
  refine ⟨rfl, ?_⟩
  unfold updateNode
  dsimp only
  rw [List.map_map]
  have hfun : (nodeSkel ∘ fun nd : NodeData =>
      if nd.id == i then { nd with val := v } else nd) = nodeSkel := by
    funext nd
    simp only [Function.comp_apply]
    by_cases h : nd.id == i
    · rw [if_pos h]
      rfl
    · rw [if_neg h]
  rw [hfun]

theorem getNode_skeleton {g g' : Graph} (h : SameSkeleton g g') (i : String) :
    (getNode g' i).map nodeSkel = (getNode g i).map nodeSkel := by
  unfold getNode
  have e1 : (g'.nodes.map nodeSkel).find? (fun t => t.1 == i)
      = (g'.nodes.find? fun nd => nd.id == i).map nodeSkel := by
    rw [List.find?_map]
    rfl
  have e2 : (g.nodes.map nodeSkel).find? (fun t => t.1 == i)
      = (g.nodes.find? fun nd => nd.id == i).map nodeSkel := by
    rw [List.find?_map]
    rfl
  rw [← e1, ← e2, h.2]

theorem option_map_isSome {α β : Type} (f : α → β) {x y : Option α}
    (h : x.map f = y.map f) : x.isSome = y.isSome := by
  cases x <;> cases y <;> simp_all

theorem getResult_skeleton {g g' : Graph} (h : SameSkeleton g g') (i : String) :
    getResult g' i = getResult g i := by
  have hg := getNode_skeleton h i
  unfold getResult
  cases h1 : getNode g i with
  | none =>
      rw [h1] at hg
      cases h2 : getNode g' i with
      | none => rfl
      | some nd => rw [h2] at hg; simp at hg
  | some nd =>
      rw [h1] at hg
      cases h2 : getNode g' i with
      | none => rw [h2] at hg; simp at hg
      | some nd' =>
          rw [h2] at hg
          simp only [Option.map, Option.some.injEq, nodeSkel, Prod.mk.injEq] at hg
          dsimp only
          rw [hg.2.2.2]

theorem make_outputs_skeleton {g g' : Graph} (h : SameSkeleton g g') :
    ∀ keys, make_outputs g' keys = make_outputs g keys
  | [] => rfl
  | k :: ks => by
      simp only [make_outputs, getResult_skeleton h, make_outputs_skeleton h ks]

theorem set_inputs_skeleton : ∀ (g : Graph) (inputs : List (String × Value)) (g' : Graph),
    set_inputs g inputs = .ok g' → SameSkeleton g g'
  | g, [], g', h => by
      unfold set_inputs at h
      cases h
      exact skeleton_refl g
  | g, (k, v) :: rest, g', h => by
      unfold set_inputs at h
      by_cases hp : (getNode g ("#" ++ k)).isSome
      · rw [if_pos hp] at h
        exact skeleton_trans (updateNode_skeleton g _ v)
          (set_inputs_skeleton _ rest g' h)
      · rw [if_neg hp] at h
        cases h

theorem set_inputs_ok_of_present : ∀ (g : Graph) (inputs : List (String × Value)),
    (∀ k ∈ inputs.map Prod.fst, (getNode g ("#" ++ k)).isSome) →
    ∃ g', set_inputs g inputs = .ok g'
  | g, [], _ => ⟨g, rfl⟩
  | g, (k, v) :: rest, h => by
      have hk : (getNode g ("#" ++ k)).isSome := h k (by simp)
      have hrest : ∀ k' ∈ rest.map Prod.fst,
          (getNode (updateNode g ("#" ++ k) fun nd => { nd with val := v })
            ("#" ++ k')).isSome := by
        intro k' hk'
        have hsk := updateNode_skeleton g ("#" ++ k) v
        rw [option_map_isSome nodeSkel (getNode_skeleton hsk ("#" ++ k'))]
        exact h k' (by simp [hk'])
      obtain ⟨g', hg'⟩ := set_inputs_ok_of_present _ rest hrest
      refine ⟨g', ?_⟩
      unfold set_inputs
      rw [if_pos hk]
      exact hg'

theorem set_inputs_missing : ∀ (g : Graph) (inputs : List (String × Value)),
    (∃ k ∈ inputs.map Prod.fst, getNode g ("#" ++ k) = none) →
    set_inputs g inputs = .error .keyErr
  | _, [], h => by simp at h
  | g, (k, v) :: rest, h => by
      obtain ⟨k', hk', hnone⟩ := h
      simp only [List.map_cons, List.mem_cons] at hk'
      unfold set_inputs
      by_cases hp : (getNode g ("#" ++ k)).isSome
      · rw [if_pos hp]
        rcases hk' with rfl | hk'
        · rw [hnone] at hp
          simp at hp
        · apply set_inputs_missing
          refine ⟨k', by simpa using hk', ?_⟩
          have hsk := updateNode_skeleton g ("#" ++ k) v
          have hiso := option_map_isSome nodeSkel (getNode_skeleton hsk ("#" ++ k'))
          rw [hnone] at hiso
          simp only [Option.isSome_none] at hiso
          cases hgn : getNode (updateNode g ("#" ++ k) fun nd => { nd with val := v })
              ("#" ++ k') with
          | none => rfl
          | some nd => rw [hgn] at hiso; simp at hiso
      · rw [if_neg hp]

/-- C10: an inputs mapping handed to `Workflow.set_inputs` whose keys
include some `k` with no graph node `'#' + k` fails with the key-lookup
error rather than being ignored; a mapping all of whose keys have
declared nodes is accepted. -/
theorem c10_set_inputs_validation (g : Graph) (inputs : List (String × Value)) :
    ((∃ k ∈ inputs.map Prod.fst, getNode g ("#" ++ k) = none) →
        set_inputs g inputs = .error .keyErr) ∧
    ((∀ k ∈ inputs.map Prod.fst, (getNode g ("#" ++ k)).isSome) →
        ∃ g', set_inputs g inputs = .ok g') :=
  ⟨set_inputs_missing g inputs, set_inputs_ok_of_present g inputs⟩

/-- C10 witness: on the one-port graph `g3`, the undeclared key
`bogus` is rejected with the key error while the declared key `x` is
accepted. -/
theorem c10_witness :
    set_inputs g3 [("bogus", .vnull)] = .error .keyErr ∧
    ∃ g', set_inputs g3 [("x", .vnum 5)] = .ok g' :=
  ⟨(c10_set_inputs_validation g3 [("bogus", .vnull)]).1
      ⟨"bogus", List.mem_singleton_self _, rfl⟩,
   (c10_set_inputs_validation g3 [("x", .vnum 5)]).2 (by decide)⟩

theorem updateNode_ids (g : Graph) (i : String) (f : NodeData → NodeData)
    (hf : ∀ nd, (f nd).id = nd.id) :
    (updateNode g i f).nodes.map (fun nd => nd.id) = g.nodes.map (fun nd => nd.id) := by
  unfold updateNode
  dsimp only
  rw [List.map_map]
  have hfun : ((fun nd : NodeData => nd.id) ∘ fun nd =>
      if nd.id == i then f nd else nd) = fun nd : NodeData => nd.id := by
    funext nd
    simp only [Function.comp_apply]
    exact id_if_update i f hf nd
  rw [hfun]

theorem mem_updateNode_of_ne (g : Graph) (i : String) (f : NodeData → NodeData)
    (nd : NodeData) (hmem : nd ∈ g.nodes) (hne : nd.id ≠ i) :
    nd ∈ (updateNode g i f).nodes := by
  have h2 := List.mem_map_of_mem
    (fun nd : NodeData => if nd.id == i then f nd else nd) hmem
  simp only [] at h2
  rw [if_neg (by simp [hne] : ¬ (nd.id == i) = true)] at h2
  exact h2

theorem nextNode_none (g : Graph) (h : nextNode g = .ok none) :
    findReady g = none := by
  unfold nextNode at h
  cases hf : findReady g with
  | none => rfl
  | some nd =>
      rw [hf] at h
      dsimp only at h
      cases hv : make_val g nd.id with
      | error e => rw [hv] at h; cases h
      | ok v =>
          rw [hv] at h
          simp only [except_bind_ok] at h
          cases h

theorem nextNode_some (g : Graph) (i : String) (g₁ : Graph)
    (h : nextNode g = .ok (some (i, g₁))) :
    ∃ nd v, nd ∈ g.nodes ∧ nd.status = none ∧ allPredsDone g nd.id = true ∧
      i = nd.id ∧ make_val g nd.id = .ok v ∧
      g₁ = updateNode g nd.id fun n => { n with val := v, status := some .running } := by
  unfold nextNode at h
  cases hf : findReady g with
  | none => rw [hf] at h; cases h
  | some nd =>
      rw [hf] at h
      dsimp only at h
      cases hv : make_val g nd.id with
      | error e => rw [hv] at h; cases h
      | ok v =>
          rw [hv] at h
          simp only [except_bind_ok, Except.ok.injEq, Option.some.injEq,
            Prod.mk.injEq] at h
          have hfind : List.find? (fun nd : NodeData =>
              nd.status == none && allPredsDone g nd.id) g.nodes = some nd := hf
          have hmem := List.mem_of_find?_eq_some hfind
          have hpred := List.find?_some hfind
          simp only [Bool.and_eq_true, beq_iff_eq] at hpred
          exact ⟨nd, v, hmem, hpred.1, hpred.2, h.1.symm, hv, h.2.symm⟩

theorem executeNode_ok (impls : String → Value → Except RunErr Value) (g : Graph)
    (i : String) (g₂ : Graph) (h : executeNode impls g i = .ok g₂) :
    ∃ r, g₂ = finish g i r := by
  unfold executeNode at h
  cases hn : getNode g i with
  | none => rw [hn] at h; cases h
  | some nd =>
      rw [hn] at h
      dsimp only at h
      by_cases hp : nd.ntype = .port
      · rw [if_pos hp] at h
        refine ⟨nd.val, ?_⟩
        cases h
        rfl
      · rw [if_neg hp] at h
        cases hr : impls i nd.val with
        | error e => rw [hr] at h; cases h
        | ok r =>
            rw [hr] at h
            simp only [except_bind_ok, Except.ok.injEq] at h
            exact ⟨r, h.symm⟩

theorem findReady_none_of_all_done (g : Graph)
    (h : ∀ nd ∈ g.nodes, nd.status = some .done) : findReady g = none := by
  unfold findReady
  rw [List.find?_eq_none]
  intro nd hnd
  simp [h nd hnd]

theorem runLoop_idle (impls : String → Value → Except RunErr Value) (g : Graph)
    (fuel : Nat) (h : findReady g = none) (hf : 1 ≤ fuel) :
    runLoop impls g fuel = .ok g := by
  cases fuel with
  | zero => omega
  | succ n =>
      unfold runLoop nextNode
      rw [h]

theorem status_transport {g g' : Graph} (h : SameSkeleton g g')
    (P : Option Status → Prop) (hall : ∀ nd ∈ g.nodes, P nd.status) :
    ∀ nd ∈ g'.nodes, P nd.status := by
  intro nd' hmem
  have hin : nodeSkel nd' ∈ g'.nodes.map nodeSkel := List.mem_map_of_mem _ hmem
  rw [h.2] at hin
  obtain ⟨nd, hnd, heq⟩ := List.mem_map.mp hin
  have hst : nd'.status = nd.status := by
    have := congrArg (fun t : String × NType × Option Status × Option Value =>
      t.2.2.1) heq
    simpa [nodeSkel] using this.symm
  rw [hst]
  exact hall nd hnd

theorem ids_of_skeleton {g g' : Graph} (h : SameSkeleton g g') :
    g'.nodes.map (fun nd => nd.id) = g.nodes.map (fun nd => nd.id) := by
  have h2 := congrArg (List.map Prod.fst) h.2
  rw [List.map_map, List.map_map] at h2
  exact h2

theorem runLoop_ok (impls : String → Value → Except RunErr Value) :
    ∀ (fuel : Nat) (g g' : Graph),
      runLoop impls g fuel = .ok g' →
      g'.edges = g.edges ∧
      g'.nodes.map (fun nd => nd.id) = g.nodes.map (fun nd => nd.id) ∧
      findReady g' = none ∧
      ((∀ nd ∈ g.nodes, nd.status ≠ some .running) →
          ∀ nd ∈ g'.nodes, nd.status ≠ some .running) ∧
      ((g.nodes.map (fun nd => nd.id)).Nodup →
          ∀ nd ∈ g.nodes, nd.status = some .done → nd ∈ g'.nodes)
  | 0, _, _, h => by cases h
  | fuel + 1, g, g', h => by
      unfold runLoop at h
      cases hn : nextNode g with
      | error e => rw [hn] at h; cases h
      | ok o =>
          cases o with
          | none =>
              rw [hn] at h
              cases h
              exact ⟨rfl, rfl, nextNode_none g hn, fun hnr => hnr, fun _ nd hmem _ => hmem⟩
          | some pair =>
              obtain ⟨i, g₁⟩ := pair
              rw [hn] at h
              dsimp only at h
              cases he : executeNode impls g₁ i with
              | error e => rw [he] at h; cases h
              | ok g₂ =>
                  rw [he] at h
                  obtain ⟨nd, v, hmem, hst, hapd, rfl, hmv, rfl⟩ :=
                    nextNode_some g i g₁ hn
                  obtain ⟨r, rfl⟩ := executeNode_ok impls _ nd.id g₂ he
                  have IH := runLoop_ok impls fuel _ g' h
                  have hid2 : (finish (updateNode g nd.id fun n =>
                        { n with val := v, status := some .running }) nd.id r).nodes.map
                        (fun nd => nd.id)
                      = g.nodes.map (fun nd => nd.id) := by
                    unfold finish
                    rw [updateNode_ids _ nd.id
                        (fun nd => { nd with status := some Status.done, result := some r })
                        (fun _ => rfl),
                      updateNode_ids g nd.id
                        (fun n => { n with val := v, status := some Status.running })
                        (fun _ => rfl)]
                  refine ⟨IH.1.trans rfl, IH.2.1.trans hid2, IH.2.2.1, ?_, ?_⟩
                  · intro hnr
                    apply IH.2.2.2.1
                    intro x hx
                    unfold finish updateNode at hx
                    dsimp only at hx
                    rw [List.map_map] at hx
                    obtain ⟨z, hz, rfl⟩ := List.mem_map.mp hx
                    simp only [Function.comp_apply]
                    by_cases hid : (z.id == nd.id) = true
                    · rw [if_pos hid]
                      dsimp only
                      rw [if_pos hid]
                      simp
                    · rw [if_neg hid, if_neg hid]
                      exact hnr z hz
                  · intro hnodup nd0 hmem0 hdone0
                    have hne0 : nd0.id ≠ nd.id := by
                      intro heq
                      have hsame : nd0 = nd :=
                        List.inj_on_of_nodup_map hnodup hmem0 hmem heq
                      rw [hsame, hst] at hdone0
                      cases hdone0
                    have hm1 : nd0 ∈ (updateNode g nd.id fun n =>
                        { n with val := v, status := some .running }).nodes :=
                      mem_updateNode_of_ne g nd.id _ nd0 hmem0 hne0
                    have hm2 : nd0 ∈ (finish (updateNode g nd.id fun n =>
                        { n with val := v, status := some .running }) nd.id r).nodes := by
                      unfold finish
                      exact mem_updateNode_of_ne _ nd.id _ nd0 hm1 hne0
                    have hnodup2 : ((finish (updateNode g nd.id fun n =>
                        { n with val := v, status := some .running }) nd.id r).nodes.map
                          (fun nd => nd.id)).Nodup := by
                      rw [hid2]
                      exact hnodup
                    exact IH.2.2.2.2 hnodup2 nd0 hm2 hdone0

theorem exists_min_rank (rank : String → Nat) :
    ∀ l : List NodeData, l ≠ [] → ∃ m ∈ l, ∀ x ∈ l, rank m.id ≤ rank x.id
  | [], h => absurd rfl h
  | x :: t, _ => by
      by_cases ht : t = []
      · subst ht
        refine ⟨x, List.mem_cons_self x [], ?_⟩
        intro y hy
        simp only [List.mem_cons, List.not_mem_nil, or_false] at hy
        subst hy
        exact le_refl _
      · obtain ⟨m, hm, hmin⟩ := exists_min_rank rank t ht
        by_cases hc : rank x.id ≤ rank m.id
        · refine ⟨x, List.mem_cons_self x t, ?_⟩
          intro y hy
          rcases List.mem_cons.mp hy with rfl | hy
          · exact le_refl _
          · exact le_trans hc (hmin y hy)
        · refine ⟨m, List.mem_cons_of_mem x hm, ?_⟩
          intro y hy
          rcases List.mem_cons.mp hy with rfl | hy
          · omega
          · exact hmin y hy

theorem terminal_all_done (g : Graph) (rank : String → Nat)
    (hrank : ∀ e ∈ g.edges, rank e.src < rank e.dst)
    (hclosed : ∀ e ∈ g.edges, ∃ nd ∈ g.nodes, nd.id = e.src)
    (hnr : ∀ nd ∈ g.nodes, nd.status ≠ some .running)
    (hterm : findReady g = none) :
    ∀ nd ∈ g.nodes, nd.status = some .done := by
  by_contra hcon
  push_neg at hcon
  obtain ⟨nd0, hmem0, hst0⟩ := hcon
  have hnone0 : nd0.status = none := by
    cases hs : nd0.status with
    | none => rfl
    | some s =>
        cases s with
        | running => exact absurd hs (hnr nd0 hmem0)
        | done => exact absurd hs hst0
  have hS : g.nodes.filter (fun nd => nd.status == none) ≠ [] := by
    intro hemp
    have hin : nd0 ∈ g.nodes.filter (fun nd => nd.status == none) :=
      List.mem_filter.mpr ⟨hmem0, by simp [hnone0]⟩
    rw [hemp] at hin
    cases hin
  obtain ⟨m, hmS, hmin⟩ := exists_min_rank rank _ hS
  have hmmem : m ∈ g.nodes := (List.mem_filter.mp hmS).1
  have hmst : m.status = none := by
    have := (List.mem_filter.mp hmS).2
    simpa using this
  have hapd : allPredsDone g m.id = true := by
    unfold allPredsDone
    rw [List.all_eq_true]
    intro p hp
    unfold preds inEdges at hp
    rw [List.mem_map] at hp
    obtain ⟨e, he, rfl⟩ := hp
    have heE : e ∈ g.edges := (List.mem_filter.mp he).1
    have hdst : e.dst = m.id := by
      have := (List.mem_filter.mp he).2
      simpa using this
    obtain ⟨np, hnpmem, hnpid⟩ := hclosed e heE
    have hisSome : (getNode g e.src).isSome = true := by
      unfold getNode
      rw [List.find?_isSome]
      exact ⟨np, hnpmem, by simp [hnpid]⟩
    obtain ⟨nf, hnf⟩ := Option.isSome_iff_exists.mp hisSome
    rw [hnf]
    have hnf' : List.find? (fun nd : NodeData => nd.id == e.src) g.nodes = some nf := hnf
    have hnfmem := List.mem_of_find?_eq_some hnf'
    have hnfid : nf.id = e.src := by simpa using List.find?_some hnf'
    cases hs : nf.status with
    | some s =>
        cases s with
        | done => simp [hs]
        | running => exact absurd hs (hnr nf hnfmem)
    | none =>
        exfalso
        have hnfS : nf ∈ g.nodes.filter (fun nd => nd.status == none) :=
          List.mem_filter.mpr ⟨hnfmem, by simp [hs]⟩
        have hrk := hmin nf hnfS
        have hlt : rank nf.id < rank m.id := by
          rw [hnfid, ← hdst]
          exact hrank e heE
        omega
  rw [findReady, List.find?_eq_none] at hterm
  have hm := hterm m hmmem
  simp [hmst, hapd] at hm

/-- C3 counterexample: on the one-port workflow `g3`, one complete
`_run` leaves the instance fully done and returns `x = 7`; claim C3
says any subsequent `_run` returns that same mapping "regardless of
the new inputs", yet a second `_run` whose inputs contain the
undeclared key `bogus` raises the key error in `set_inputs` instead of
returning anything. -/
theorem c3_counterexample :
    wf_run impls3 g3 ["x"] [("x", .vnum 7)] 2 = .ok (g3done, [("x", .vnum 7)]) ∧
    wf_run impls3 g3done ["x"] [("bogus", .vnull)] 2 = .error .keyErr :=
  ⟨rfl, rfl⟩

/-- C3 (amended): for every workflow whose graph is closed (edge
sources are nodes), acyclic (witnessed by a rank function), fresh (no
node has a status) and has distinct node ids: after one complete
execution of `_run`, every node has status `done`; and any subsequent
invocation of `_run` on the same instance whose inputs' keys are all
declared (so `set_inputs` succeeds; undeclared keys raise a key error
instead, per C10) finds no ready node, executes nothing, and returns
the result mapping of the first execution, leaving every node's
status and result unchanged (statuses, once set, are never
cleared). -/
theorem c3_run_once_then_inert (impls : String → Value → Except RunErr Value)
    (g : Graph) (keys : List String) (inputs inputs' : List (String × Value))
    (rank : String → Nat)
    (hrank : ∀ e ∈ g.edges, rank e.src < rank e.dst)
    (hclosed : ∀ e ∈ g.edges, ∃ nd ∈ g.nodes, nd.id = e.src)
    (hfresh : ∀ nd ∈ g.nodes, nd.status = none)
    (fuel fuel' : Nat) (hf' : 1 ≤ fuel')
    (g₁ : Graph) (r₁ : List (String × Value))
    (hrun : wf_run impls g keys inputs fuel = .ok (g₁, r₁))
    (hok' : ∀ k ∈ inputs'.map Prod.fst, (getNode g₁ ("#" ++ k)).isSome) :
    (∀ nd ∈ g₁.nodes, nd.status = some .done) ∧
    ∃ g₂, wf_run impls g₁ keys inputs' fuel' = .ok (g₂, r₁) ∧ SameSkeleton g₁ g₂ := by
  unfold wf_run at hrun
  cases hs0 : set_inputs g inputs with
  | error e => rw [hs0] at hrun; cases hrun
  | ok g₀ =>
      rw [hs0] at hrun
      simp only [except_bind_ok] at hrun
      cases hL : runLoop impls g₀ fuel with
      | error e => rw [hL] at hrun; cases hrun
      | ok gL =>
          rw [hL] at hrun
          simp only [except_bind_ok] at hrun
          cases hO : make_outputs gL keys with
          | error e => rw [hO] at hrun; cases hrun
          | ok outs =>
              rw [hO] at hrun
              simp only [except_bind_ok, Except.ok.injEq, Prod.mk.injEq] at hrun
              obtain ⟨rfl, rfl⟩ := hrun
              have hskel0 : SameSkeleton g g₀ := set_inputs_skeleton g inputs g₀ hs0
              have hfresh0 : ∀ nd ∈ g₀.nodes, nd.status = none :=
                status_transport hskel0 (fun s => s = none) hfresh
              have hLok := runLoop_ok impls fuel g₀ gL hL
              have hnr0 : ∀ nd ∈ g₀.nodes, nd.status ≠ some .running := by
                intro nd h hcon
                rw [hfresh0 nd h] at hcon
                cases hcon
              have hnrL : ∀ nd ∈ gL.nodes, nd.status ≠ some .running :=
                hLok.2.2.2.1 hnr0
              have hedgesL : gL.edges = g.edges := hLok.1.trans hskel0.1
              have hidsL : gL.nodes.map (fun nd => nd.id)
                  = g.nodes.map (fun nd => nd.id) :=
                hLok.2.1.trans (ids_of_skeleton hskel0)
              have hrankL : ∀ e ∈ gL.edges, rank e.src < rank e.dst := by
                rw [hedgesL]
                exact hrank
              have hclosedL : ∀ e ∈ gL.edges, ∃ nd ∈ gL.nodes, nd.id = e.src := by
                rw [hedgesL]
                intro e he
                obtain ⟨nd, hnd, hid⟩ := hclosed e he
                have hmm : nd.id ∈ gL.nodes.map (fun nd => nd.id) := by
                  rw [hidsL]
                  exact List.mem_map_of_mem _ hnd
                obtain ⟨nd', hnd', hid'⟩ := List.mem_map.mp hmm
                exact ⟨nd', hnd', hid'.trans hid⟩
              have hdone : ∀ nd ∈ gL.nodes, nd.status = some .done :=
                terminal_all_done gL rank hrankL hclosedL hnrL hLok.2.2.1
              refine ⟨hdone, ?_⟩
              obtain ⟨g₁', hset'⟩ := set_inputs_ok_of_present gL inputs' hok'
              have hskel' : SameSkeleton gL g₁' :=
                set_inputs_skeleton gL inputs' g₁' hset'
              have hdone' : ∀ nd ∈ g₁'.nodes, nd.status = some .done :=
                status_transport hskel' (fun s => s = some .done) hdone
              have hfr' : findReady g₁' = none := findReady_none_of_all_done g₁' hdone'
              refine ⟨g₁', ?_, hskel'⟩
              unfold wf_run
              rw [hset', except_bind_ok, runLoop_idle impls g₁' fuel' hfr' hf',
                except_bind_ok, make_outputs_skeleton hskel' keys, hO, except_bind_ok]

/-- C3 witness: the one-port workflow `g3` run once with `x = 7`, then
again with the different, declared input `x = 8`: the second run
executes nothing and still returns `x = 7` with statuses and results
untouched. -/
theorem c3_witness :
    (∀ nd ∈ g3done.nodes, nd.status = some Status.done) ∧
    ∃ g₂, wf_run impls3 g3done ["x"] [("x", .vnum 8)] 2 = .ok (g₂, [("x", .vnum 7)]) ∧
      SameSkeleton g3done g₂ :=
  c3_run_once_then_inert impls3 g3 ["x"] [("x", .vnum 7)] [("x", .vnum 8)]
    (fun _ => 0)
    (by intro e he; simp [g3] at he)
    (by intro e he; simp [g3] at he)
    (by decide)
    2 2 (by omega)
    g3done [("x", .vnum 7)]
    rfl
    (by decide)

